import Mathlib

/-!
Shallow embedding of the extraction-orchestration layer of the
Data-Extraction-AI repository.

Sources embedded here:
* `src/services/gemini.ts` (first revision in the file): the helpers
  `chunkArray` and `chunkString`, the response handling of
  `callGeminiExtract`, the retry loop `callGeminiExtractWithRetry`,
  the orchestrator `extractStructuredData`, and `analyzeExtractedData`.
* `src/unnamed/part_004` (second revision in the file): the multi-file
  variant of `extractStructuredData` (comparison mode).

Modelling conventions: JavaScript strings are modelled as `String` or
`List Char`; JSON values as the inductive `Json`; the external network
oracle and the PDF codec are modelled as explicit environments mapping
each invocation to its outcome; `JSON.parse` is modelled by the
executable recursive-descent parser `jsonParse` below, which follows the
JSON grammar that the builtin accepts. Thrown exceptions are modelled
with `Except`; a function whose embedding is total cannot propagate an
exception to its caller.
-/

/-- JS `str.substring(start, stop)` / `arr.slice(start, stop)` for
`0 ≤ start ≤ stop`: the elements from index `start` (inclusive) to
`stop` (exclusive), clamped to the sequence's length. -/
def substringJS (s : List α) (start stop : Nat) : List α :=
  (s.take stop).drop start

/-- The loop of `chunkArray` (src/services/gemini.ts lines 14-20):
`for (let i = 0; i < arr.length; i += size) res.push(arr.slice(i, i + size))`.
`fuel` bounds the number of remaining iterations; for `0 < size` a fuel of
`arr.length` is enough, and for `size = 0` the source loop does not
terminate (that case is never exercised: every call site passes a
positive constant). -/
def chunkArrayGo (arr : List α) (size : Nat) : Nat → Nat → List (List α)
  | _, 0 => []
  | i, fuel + 1 =>
    if i < arr.length then
      substringJS arr i (i + size) :: chunkArrayGo arr size (i + size) fuel
    else []

/-- Embeds `chunkArray` (src/services/gemini.ts lines 14-20). -/
def chunkArray (arr : List α) (size : Nat) : List (List α) :=
  chunkArrayGo arr size 0 arr.length

/-- Embeds `chunkString` (src/services/gemini.ts lines 23-30):
`numChunks = Math.ceil(str.length / size)` and the i-th chunk is
`str.substring(o, o + size)` where the offset `o` equals `i * size`.
For natural `L` and positive `size`, `Math.ceil(L / size)` equals
`(L + size - 1) / size` in natural division. -/
def chunkString (str : List Char) (size : Nat) : List (List Char) :=
  let numChunks := (str.length + size - 1) / size
  (List.range numChunks).map (fun i => substringJS str (i * size) (i * size + size))

theorem substringJS_eq_drop_take (s : List α) (i n : Nat) :
    substringJS s i (i + n) = (s.drop i).take n := by
  unfold substringJS
  rw [List.drop_take]
  congr 1
  omega

theorem chunkArrayGo_shift (arr : List α) (size : Nat) :
    ∀ fuel i j, chunkArrayGo arr size (i + j) fuel = chunkArrayGo (arr.drop i) size j fuel := by
  intro fuel
  induction fuel with
  | zero => intro i j; rfl
  | succ f ih =>
    intro i j
    show (if i + j < arr.length then _ else _) = (if j < (arr.drop i).length then _ else _)
    rw [List.length_drop]
    by_cases h : i + j < arr.length
    · rw [if_pos h, if_pos (show j < arr.length - i by omega)]
      congr 1
      · rw [substringJS_eq_drop_take, substringJS_eq_drop_take, List.drop_drop]
      · rw [show i + j + size = i + (j + size) from by omega, ih]
    · rw [if_neg h, if_neg (show ¬j < arr.length - i by omega)]

theorem chunkArrayGo_congr (arr : List α) (size : Nat) (hsize : 0 < size) :
    ∀ fuel fuel' i, arr.length - i ≤ fuel → arr.length - i ≤ fuel' →
      chunkArrayGo arr size i fuel = chunkArrayGo arr size i fuel' := by
  intro fuel
  induction fuel with
  | zero =>
    intro fuel' i h h'
    cases fuel' with
    | zero => rfl
    | succ f' =>
      show [] = if i < arr.length then _ else _
      rw [if_neg (show ¬i < arr.length by omega)]
  | succ f ih =>
    intro fuel' i h h'
    cases fuel' with
    | zero =>
      show (if i < arr.length then _ else _) = []
      rw [if_neg (show ¬i < arr.length by omega)]
    | succ f' =>
      show (if i < arr.length then _ else _) = (if i < arr.length then _ else _)
      by_cases hi : i < arr.length
      · rw [if_pos hi, if_pos hi]
        congr 1
        exact ih f' (i + size) (by omega) (by omega)
      · rw [if_neg hi, if_neg hi]

theorem chunkArray_nil (size : Nat) : chunkArray ([] : List α) size = [] := rfl

/-- For a positive chunk size and a nonempty input, `chunkArray`
satisfies the natural head/tail recursion. -/
theorem chunkArray_cons (l : List α) (size : Nat) (hsize : 0 < size) (hl : l ≠ []) :
    chunkArray l size = l.take size :: chunkArray (l.drop size) size := by
  have hlen : 0 < l.length := List.length_pos.mpr hl
  show chunkArrayGo l size 0 l.length = _
  obtain ⟨m, hm⟩ : ∃ m, l.length = m + 1 := ⟨l.length - 1, by omega⟩
  rw [hm]
  show (if 0 < l.length then _ else _) = _
  rw [if_pos hlen]
  congr 1
  · rw [show (0 : Nat) + size = 0 + size from rfl, substringJS_eq_drop_take, List.drop_zero]
  · rw [show (0 : Nat) + size = size + 0 from by omega, chunkArrayGo_shift l size m size 0]
    exact chunkArrayGo_congr (l.drop size) size hsize m (l.drop size).length 0
      (by rw [List.length_drop]; omega) (by omega)

theorem chunkArray_flatten (size : Nat) (hsize : 0 < size) (l : List α) :
    (chunkArray l size).flatten = l := by
  by_cases hl : l = []
  · subst hl; rfl
  · rw [chunkArray_cons l size hsize hl, List.flatten_cons,
        chunkArray_flatten size hsize (l.drop size), List.take_append_drop]
termination_by l.length
decreasing_by
  have : 0 < l.length := List.length_pos.mpr hl
  rw [List.length_drop]; omega

theorem chunkArray_length (size : Nat) (hsize : 0 < size) (l : List α) :
    (chunkArray l size).length = (l.length + size - 1) / size := by
  by_cases hl : l = []
  · subst hl
    show (0 : Nat) = (0 + size - 1) / size
    rw [Nat.div_eq_of_lt (show 0 + size - 1 < size by omega)]
  · rw [chunkArray_cons l size hsize hl, List.length_cons,
        chunkArray_length size hsize (l.drop size), List.length_drop]
    have hlen : 0 < l.length := List.length_pos.mpr hl
    by_cases hle : l.length ≤ size
    · have h1 : l.length - size = 0 := by omega
      rw [h1, Nat.div_eq_of_lt (show 0 + size - 1 < size by omega)]
      have h3 : (l.length + size - 1) / size = 1 := by
        rw [show l.length + size - 1 = (l.length - 1) + size from by omega,
            Nat.add_div_right _ hsize, Nat.div_eq_of_lt (show l.length - 1 < size by omega)]
      rw [h3]
    · rw [show l.length - size + size - 1 = (l.length - size - 1) + size from by omega,
          show l.length + size - 1 = (l.length - 1) + size from by omega,
          Nat.add_div_right _ hsize, Nat.add_div_right _ hsize,
          show l.length - 1 = (l.length - size - 1) + size from by omega,
          Nat.add_div_right _ hsize]
termination_by l.length
decreasing_by
  have : 0 < l.length := List.length_pos.mpr hl
  rw [List.length_drop]; omega

theorem chunkArray_mem_length_le (size : Nat) (hsize : 0 < size) (l : List α) :
    ∀ c ∈ chunkArray l size, c.length ≤ size := by
  by_cases hl : l = []
  · subst hl; intro c hc; simp [chunkArray_nil] at hc
  · rw [chunkArray_cons l size hsize hl]
    intro c hc
    rcases List.mem_cons.mp hc with h | h
    · subst h; simpa using List.length_take_le size l
    · exact chunkArray_mem_length_le size hsize (l.drop size) c h
termination_by l.length
decreasing_by
  have : 0 < l.length := List.length_pos.mpr hl
  rw [List.length_drop]; omega

theorem chunkArray_dropLast_length (size : Nat) (hsize : 0 < size) (l : List α) :
    ∀ c ∈ (chunkArray l size).dropLast, c.length = size := by
  by_cases hl : l = []
  · subst hl; intro c hc; simp [chunkArray_nil] at hc
  · rw [chunkArray_cons l size hsize hl]
    by_cases ht : chunkArray (l.drop size) size = []
    · rw [ht]
      intro c hc
      simp at hc
    · rw [List.dropLast_cons_of_ne_nil ht]
      intro c hc
      rcases List.mem_cons.mp hc with h | h
      · subst h
        have hgt : size < l.length := by
          by_contra hle
          have hdrop : l.drop size = [] := List.drop_eq_nil_of_le (by omega)
          rw [hdrop, chunkArray_nil] at ht
          exact ht rfl
        rw [List.length_take]
        omega
      · exact chunkArray_dropLast_length size hsize (l.drop size) c h
termination_by l.length
decreasing_by
  have : 0 < l.length := List.length_pos.mpr hl
  rw [List.length_drop]; omega

/-- Every chunk produced by `chunkArray` is a contiguous slice:
`(l.drop i).take size` for some offset `i`. -/
theorem chunkArray_mem_slice (size : Nat) (hsize : 0 < size) (l : List α) :
    ∀ c ∈ chunkArray l size, ∃ i, c = (l.drop i).take size := by
  by_cases hl : l = []
  · subst hl; intro c hc; simp [chunkArray_nil] at hc
  · rw [chunkArray_cons l size hsize hl]
    intro c hc
    rcases List.mem_cons.mp hc with h | h
    · exact ⟨0, by simpa using h⟩
    · obtain ⟨i, hi⟩ := chunkArray_mem_slice size hsize (l.drop size) c h
      exact ⟨size + i, by rw [hi, List.drop_drop]⟩
termination_by l.length
decreasing_by
  have : 0 < l.length := List.length_pos.mpr hl
  rw [List.length_drop]; omega

/-- `chunkString` computes the same chunk list as `chunkArray`
(for a positive size): the two JS helpers agree. -/
theorem chunkString_eq_chunkArray (str : List Char) (size : Nat) (hsize : 0 < size) :
    chunkString str size = chunkArray str size := by
  by_cases hs : str = []
  · subst hs
    show (List.range ((0 + size - 1) / size)).map _ = _
    rw [Nat.div_eq_of_lt (show 0 + size - 1 < size by omega), List.range_zero,
        List.map_nil, chunkArray_nil]
  · rw [chunkArray_cons str size hsize hs]
    have hlen : 0 < str.length := List.length_pos.mpr hs
    have hnum : (str.length + size - 1) / size = (str.length - 1) / size + 1 := by
      rw [show str.length + size - 1 = (str.length - 1) + size from by omega,
          Nat.add_div_right _ hsize]
    show (List.range ((str.length + size - 1) / size)).map _ = _
    rw [hnum, List.range_succ_eq_map, List.map_cons, List.map_map]
    congr 1
    · show substringJS str (0 * size) (0 * size + size) = str.take size
      rw [substringJS_eq_drop_take]
      simp
    · rw [← chunkString_eq_chunkArray (str.drop size) size hsize]
      show _ = (List.range (((str.drop size).length + size - 1) / size)).map _
      have harg : ((str.drop size).length + size - 1) / size = (str.length - 1) / size := by
        rw [List.length_drop]
        by_cases hle : str.length ≤ size
        · rw [show str.length - size = 0 from by omega,
              Nat.div_eq_of_lt (show 0 + size - 1 < size by omega),
              Nat.div_eq_of_lt (show str.length - 1 < size by omega)]
        · rw [show str.length - size + size - 1 = (str.length - size - 1) + size from by omega,
              Nat.add_div_right _ hsize,
              show str.length - 1 = (str.length - size - 1) + size from by omega,
              Nat.add_div_right _ hsize]
      rw [harg]
      apply List.map_congr_left
      intro i _
      show substringJS str ((i + 1) * size) ((i + 1) * size + size) =
        substringJS (str.drop size) (i * size) (i * size + size)
      rw [substringJS_eq_drop_take, substringJS_eq_drop_take, List.drop_drop]
      congr 2
      ring
termination_by str.length
decreasing_by
  have : 0 < str.length := List.length_pos.mpr hs
  rw [List.length_drop]; omega

/-- The chunk count `(L + B - 1) / B` is the ceiling of `L / B`:
it is characterised by `L ≤ n * B < L + B`. -/
theorem ceil_count_bounds (L B : Nat) (hB : 0 < B) :
    L ≤ ((L + B - 1) / B) * B ∧ ((L + B - 1) / B) * B < L + B := by
  have h1 : B * ((L + B - 1) / B) + (L + B - 1) % B = L + B - 1 :=
    Nat.div_add_mod (L + B - 1) B
  have h2 : (L + B - 1) % B < B := Nat.mod_lt _ hB
  have h3 : ((L + B - 1) / B) * B = B * ((L + B - 1) / B) := Nat.mul_comm _ _
  rw [h3]
  omega

theorem take_range' : ∀ (n s m : Nat), (List.range' s n).take m = List.range' s (min m n) := by
  intro n
  induction n with
  | zero => intro s m; simp
  | succ k ih =>
    intro s m
    cases m with
    | zero => simp
    | succ m' =>
      rw [List.range'_succ, List.take_succ_cons, ih (s + 1) m',
          show min (m' + 1) (k + 1) = min m' k + 1 from by omega, List.range'_succ]

theorem drop_range (P i : Nat) : (List.range P).drop i = List.range' i (P - i) := by
  have h : ∀ (n s j : Nat), (List.range' s n).drop j = List.range' (s + j) (n - j) := by
    intro n
    induction n with
    | zero => intro s j; simp
    | succ k ih =>
      intro s j
      cases j with
      | zero => simp
      | succ j' =>
        rw [List.range'_succ, List.drop_succ_cons, ih (s + 1) j',
            show s + 1 + j' = s + (j' + 1) from by omega,
            show k + 1 - (j' + 1) = k - j' from by omega]
  rw [List.range_eq_range', h P 0 i, Nat.zero_add]

/-- C1 property bundle for `chunkString` at a string `s` and bound `B`:
the chunk count is the ceiling `(L + B - 1) / B` (characterised by
`L ≤ count * B < L + B`), the in-order concatenation round-trips,
every piece but the last has length exactly `B`, no piece exceeds `B`,
and the empty string yields zero pieces. -/
def C1Prop (s : List Char) (B : Nat) : Prop :=
  (chunkString s B).length = (s.length + B - 1) / B ∧
  s.length ≤ (chunkString s B).length * B ∧
  (chunkString s B).length * B < s.length + B ∧
  (chunkString s B).flatten = s ∧
  (∀ c ∈ (chunkString s B).dropLast, c.length = B) ∧
  (∀ c ∈ chunkString s B, c.length ≤ B) ∧
  (s = [] → chunkString s B = [])

/-- C1: for every string `s` and every character bound `B > 0`,
`chunkString` returns `ceil(len(s)/B)` pieces whose in-order concatenation
equals `s` exactly (no overlap, no gaps); every piece except the last has
length exactly `B`, only the final piece may be shorter, and the empty
string yields zero pieces. -/
theorem chunkString_chunks_exactly (s : List Char) (B : Nat) (hB : 0 < B) :
    C1Prop s B := by
  unfold C1Prop
  rw [chunkString_eq_chunkArray s B hB]
  refine ⟨chunkArray_length B hB s, ?_, ?_, chunkArray_flatten B hB s,
    chunkArray_dropLast_length B hB s, chunkArray_mem_length_le B hB s, ?_⟩
  · rw [chunkArray_length B hB s]
    exact (ceil_count_bounds s.length B hB).1
  · rw [chunkArray_length B hB s]
    exact (ceil_count_bounds s.length B hB).2
  · intro hs; subst hs; exact chunkArray_nil B

theorem chunkString_chunks_exactly_witness :
    0 < 2 ∧ C1Prop ['a', 'b', 'c', 'd', 'e'] 2 :=
  ⟨by decide, chunkString_chunks_exactly ['a', 'b', 'c', 'd', 'e'] 2 (by decide)⟩

/-- C2 property bundle for page chunking: `chunkArray` applied to the page
index list `0..P-1` yields `ceil(P/B)` chunks, each of at most `B` indices,
each a contiguous ascending run, concatenating in order to exactly
`0..P-1` (no overlaps, no gaps). -/
def C2Prop (P B : Nat) : Prop :=
  (chunkArray (List.range P) B).length = (P + B - 1) / B ∧
  P ≤ (chunkArray (List.range P) B).length * B ∧
  (chunkArray (List.range P) B).length * B < P + B ∧
  (chunkArray (List.range P) B).flatten = List.range P ∧
  (∀ c ∈ chunkArray (List.range P) B, c.length ≤ B) ∧
  (∀ c ∈ chunkArray (List.range P) B, ∃ a, c = List.range' a c.length)

/-- C2: for every page count `P ≥ 0` and pages-per-chunk bound `B > 0`,
page chunking produces `ceil(P/B)` chunks, each containing at most `B`
page indices, each chunk a contiguous run in ascending order, and the
concatenation of the chunks equals `0..P-1` with no overlaps and no gaps. -/
theorem chunkArray_pages_exactly (P B : Nat) (hB : 0 < B) : C2Prop P B := by
  refine ⟨?_, ?_, ?_, chunkArray_flatten B hB (List.range P),
    chunkArray_mem_length_le B hB (List.range P), ?_⟩
  · rw [chunkArray_length B hB (List.range P), List.length_range]
  · rw [chunkArray_length B hB (List.range P), List.length_range]
    exact (ceil_count_bounds P B hB).1
  · rw [chunkArray_length B hB (List.range P), List.length_range]
    exact (ceil_count_bounds P B hB).2
  · intro c hc
    obtain ⟨i, hi⟩ := chunkArray_mem_slice B hB (List.range P) c hc
    refine ⟨i, ?_⟩
    rw [hi, drop_range, take_range', List.length_range']

theorem chunkArray_pages_exactly_witness : 0 < 2 ∧ C2Prop 5 2 :=
  ⟨by decide, chunkArray_pages_exactly 5 2 (by decide)⟩

/-- JSON values as produced by `JSON.parse`. A numeric literal is kept as
(signed mantissa including the fraction digits, number of fraction digits,
signed decimal exponent); the JS number value is
`mant / 10 ^ fracDigits * 10 ^ exp10`, and it is zero exactly when
`mant = 0` - which is all the embedded code ever inspects about numbers.
JS `typeof v === "object"` holds for `null`, `arr` and `obj`;
duplicate object keys are kept in order (the builtin keeps the last, a
difference none of the embedded code paths can observe). -/
inductive Json where
  | null : Json
  | bool (b : Bool) : Json
  | num (mant : Int) (fracDigits : Nat) (exp10 : Int) : Json
  | str (s : String) : Json
  | arr (elems : List Json) : Json
  | obj (fields : List (String × Json)) : Json

def isWsChar (c : Char) : Bool :=
  c = ' ' || c = '\t' || c = '\n' || c = '\r'

def skipWs : List Char → List Char
  | [] => []
  | c :: cs => if isWsChar c then skipWs cs else c :: cs

def isDigitChar (c : Char) : Bool := '0' ≤ c && c ≤ '9'

def digitVal (c : Char) : Nat := c.toNat - '0'.toNat

/-- Split a leading run of decimal digits off a character list. -/
def takeDigits : List Char → List Char × List Char
  | [] => ([], [])
  | c :: cs =>
    if isDigitChar c then
      let p := takeDigits cs
      (c :: p.1, p.2)
    else ([], c :: cs)

def digitsToNat (ds : List Char) : Nat :=
  ds.foldl (fun a c => a * 10 + digitVal c) 0

/-- Parse a JSON numeric literal `-?(0|[1-9][0-9]*)(.[0-9]+)?([eE][+-]?[0-9]+)?`
into (mantissa, fraction-digit count, exponent) plus the remaining input. -/
def numSign (src : List Char) : Bool × List Char :=
  match src with
  | '-' :: tl => (true, tl)
  | other => (false, other)

def expSign (src : List Char) : Bool × List Char :=
  match src with
  | '+' :: tl => (false, tl)
  | '-' :: tl => (true, tl)
  | other => (false, other)

def startsWithDigit : List Char → Bool
  | [] => false
  | c :: _ => isDigitChar c

def parseNumber (cs : List Char) : Option ((Int × Nat × Int) × List Char) :=
  let sign := numSign cs
  if !startsWithDigit sign.2 then none
  else
    let p := takeDigits sign.2
    if 1 < p.1.length && p.1.headD '0' = '0' then none
    else
      let fr : Option (List Char × List Char) :=
        match p.2 with
        | '.' :: tl =>
          match takeDigits tl with
          | ([], _) => none
          | (fds, t2) => some (fds, t2)
        | _ => some ([], p.2)
      match fr with
      | none => none
      | some (fds, cs3) =>
        let ex : Option (Int × List Char) :=
          match cs3 with
          | 'e' :: tl | 'E' :: tl =>
            let es := expSign tl
            if !startsWithDigit es.2 then none
            else
              let q := takeDigits es.2
              some (if es.1 then -(digitsToNat q.1 : Int) else (digitsToNat q.1 : Int), q.2)
          | _ => some (0, cs3)
        match ex with
        | none => none
        | some (e, cs4) =>
          let mantAbs : Nat := digitsToNat (p.1 ++ fds)
          some ((if sign.1 then -(mantAbs : Int) else (mantAbs : Int), fds.length, e), cs4)

def hexVal (c : Char) : Option Nat :=
  if isDigitChar c then some (digitVal c)
  else if 'a' ≤ c && c ≤ 'f' then some (10 + (c.toNat - 'a'.toNat))
  else if 'A' ≤ c && c ≤ 'F' then some (10 + (c.toNat - 'A'.toNat))
  else none

/-- The character denoted by a simple (non-`u`) escape, when legal. -/
def escCharFor (e : Char) : Option Char :=
  if e = '"' then some '"'
  else if e = '\\' then some '\\'
  else if e = '/' then some '/'
  else if e = 'b' then some '\x08'
  else if e = 'f' then some '\x0c'
  else if e = 'n' then some '\n'
  else if e = 'r' then some '\r'
  else if e = 't' then some '\t'
  else none

/-- Parse the body of a JSON string literal (the opening quote already
consumed), handling the JSON escapes and rejecting raw control characters. -/
def parseStrBody : List Char → Option (List Char × List Char)
  | [] => none
  | '"' :: tl => some ([], tl)
  | '\\' :: tl =>
    match tl with
    | [] => none
    | 'u' :: t1 =>
      match t1 with
      | a :: b :: c :: d :: t2 =>
        match hexVal a, hexVal b, hexVal c, hexVal d with
        | some x, some y, some z, some w =>
          (parseStrBody t2).map
            (fun p => (Char.ofNat (((x * 16 + y) * 16 + z) * 16 + w) :: p.1, p.2))
        | _, _, _, _ => none
      | _ => none
    | e :: t1 =>
      match escCharFor e with
      | some c => (parseStrBody t1).map (fun p => (c :: p.1, p.2))
      | none => none
  | c :: tl =>
    if c.toNat < 32 then none
    else (parseStrBody tl).map (fun p => (c :: p.1, p.2))

mutual

/-- Parse one JSON value. The fuel decreases on every nesting level. -/
def parseVal : Nat → List Char → Option (Json × List Char)
  | 0, _ => none
  | fuel + 1, cs0 =>
    let cs := skipWs cs0
    match cs with
    | 'n' :: 'u' :: 'l' :: 'l' :: tl => some (Json.null, tl)
    | 't' :: 'r' :: 'u' :: 'e' :: tl => some (Json.bool true, tl)
    | 'f' :: 'a' :: 'l' :: 's' :: 'e' :: tl => some (Json.bool false, tl)
    | '"' :: tl => (parseStrBody tl).map (fun p => (Json.str (String.mk p.1), p.2))
    | '[' :: tl =>
      match skipWs tl with
      | ']' :: t2 => some (Json.arr [], t2)
      | t1 => (parseElems fuel t1).map (fun p => (Json.arr p.1, p.2))
    | '{' :: tl =>
      match skipWs tl with
      | '}' :: t2 => some (Json.obj [], t2)
      | t1 => (parseMembers fuel t1).map (fun p => (Json.obj p.1, p.2))
    | _ => (parseNumber cs).map (fun p => (Json.num p.1.1 p.1.2.1 p.1.2.2, p.2))

/-- Parse the elements of a nonempty JSON array, up to the closing bracket. -/
def parseElems : Nat → List Char → Option (List Json × List Char)
  | 0, _ => none
  | fuel + 1, cs =>
    match parseVal fuel cs with
    | none => none
    | some (v, tl) =>
      match skipWs tl with
      | ',' :: t2 =>
        match parseElems fuel t2 with
        | none => none
        | some (l, t3) => some (v :: l, t3)
      | ']' :: t2 => some ([v], t2)
      | _ => none

/-- Parse the members of a nonempty JSON object, up to the closing brace. -/
def parseMembers : Nat → List Char → Option (List (String × Json) × List Char)
  | 0, _ => none
  | fuel + 1, cs =>
    match skipWs cs with
    | '"' :: tl =>
      match parseStrBody tl with
      | none => none
      | some (k, t1) =>
        match skipWs t1 with
        | ':' :: t2 =>
          match parseVal fuel t2 with
          | none => none
          | some (v, t3) =>
            match skipWs t3 with
            | ',' :: t4 =>
              match parseMembers fuel t4 with
              | none => none
              | some (l, t5) => some ((String.mk k, v) :: l, t5)
            | '}' :: t4 => some ([(String.mk k, v)], t4)
            | _ => none
        | _ => none
    | _ => none

end

/-- Model of the JavaScript builtin `JSON.parse`: parse one JSON value and
require that only whitespace remains. Returns `none` where the builtin
throws a SyntaxError. Fuel `length + 1` suffices because every nesting
level consumes at least one character. -/
def jsonParse (s : String) : Option Json :=
  let cs := s.toList
  match parseVal (cs.length + 1) cs with
  | some (j, rest) => if skipWs rest = [] then some j else none
  | none => none

/-- The filter predicate of `callGeminiExtract`
(src/services/gemini.ts line 268): `item !== null && typeof item === "object"`.
In JS, `typeof` yields "object" for plain objects and for arrays; the
explicit `!== null` excludes the JSON `null`. -/
def keepItem : Json → Bool
  | Json.arr _ => true
  | Json.obj _ => true
  | _ => false

/-- JS falsiness of a value produced by `JSON.parse` (the `if (!json)` check
at src/services/gemini.ts line 265): `null`, `false`, `0` and `""` are falsy. -/
def isFalsyJson : Json → Bool
  | Json.null => true
  | Json.bool b => !b
  | Json.num mant _ _ => mant == 0
  | Json.str s => s == ""
  | _ => false

/-- Model of `text.match(/\[.*\]/s)` followed by taking `match[0]`
(src/services/gemini.ts line 277): with the dot-all flag and a greedy `.*`,
the match exists iff the first `[` is followed by some later `]`, and the
matched span runs from the first `[` to the last `]` of the whole text. -/
def bracketSpan (s : String) : Option String :=
  let cs := s.toList
  match cs.findIdx? (fun c => c == '['), cs.reverse.findIdx? (fun c => c == ']') with
  | some i, some k =>
    let j := cs.length - 1 - k
    if i < j then some (String.mk (substringJS cs i (j + 1))) else none
  | _, _ => none

/-- The successful-strict-parse branch (src/services/gemini.ts lines 264-275):
a falsy parse result yields `[]`, an array is filtered by `keepItem`, a
single object is wrapped, any other scalar yields `[]`. -/
def strictParsedResult (j : Json) : List Json :=
  if isFalsyJson j then []
  else
    match j with
    | Json.arr l => l.filter keepItem
    | Json.obj fs => [Json.obj fs]
    | _ => []

/-- `if (Array.isArray(parsed)) return parsed;` on the fallback path
(src/services/gemini.ts lines 278-283): the array is returned without
filtering, and a parse failure or non-array yields `[]`. -/
def arrUnfiltered : Option Json → List Json
  | some (Json.arr l) => l
  | _ => []

def fallbackFromSpan : Option String → List Json
  | some sp => arrUnfiltered (jsonParse sp)
  | none => []

/-- Embeds the response handling of `callGeminiExtract`
(src/services/gemini.ts lines 260-285, first revision; the identical code
appears in the multi-file revision of src/unnamed/part_004): an empty
response yields `[]`; a strict parse goes through `strictParsedResult`;
when the strict parse throws, the bracketed span is located and parsed via
`fallbackFromSpan`; every failure path yields `[]` rather than an
exception (this function is total). -/
def parseExtractResponse (text : String) : List Json :=
  if text = "" then []
  else
    match jsonParse text with
    | some j => strictParsedResult j
    | none => fallbackFromSpan (bracketSpan text)

/-- C3 (code bug): the claim says every element of the returned record
sequence is a non-null object on EVERY parse path, including the fallback
bracket-span path. On the strict-parse path this holds (the claim's own
example returns exactly the two objects), but on the fallback path the
recovered array is returned without the `keepItem` filter, so for the
response text "oops [1, null]" the client returns a number and a null. -/
theorem parseExtractResponse_fallback_unfiltered :
    parseExtractResponse "oops [1, null]" = [Json.num 1 0 0, Json.null] ∧
    keepItem (Json.num 1 0 0) = false ∧
    keepItem Json.null = false ∧
    parseExtractResponse "[\x7b\"a\":1\x7d, null, \"x\", \x7b\"b\":2\x7d]" =
      [Json.obj [("a", Json.num 1 0 0)], Json.obj [("b", Json.num 2 0 0)]] :=
  ⟨rfl, rfl, rfl, rfl⟩

/-- C4: for every oracle response text that is not parseable as JSON and
contains no parseable bracketed array span, the client returns the empty
record sequence (and, the embedding being total, raises no exception). -/
theorem parseExtractResponse_empty_on_unparseable (text : String)
    (h1 : jsonParse text = none)
    (h2 : ∀ sp, bracketSpan text = some sp → ∀ l, jsonParse sp ≠ some (Json.arr l)) :
    parseExtractResponse text = [] := by
  unfold parseExtractResponse
  by_cases ht : text = ""
  · rw [if_pos ht]
  · rw [if_neg ht, h1]
    show fallbackFromSpan (bracketSpan text) = []
    cases hb : bracketSpan text with
    | none => rfl
    | some sp =>
      show arrUnfiltered (jsonParse sp) = []
      cases hj : jsonParse sp with
      | none => rfl
      | some j =>
        cases j with
        | null => rfl
        | bool b => rfl
        | num m f e => rfl
        | str s => rfl
        | arr l => exact absurd hj (h2 sp hb l)
        | obj fs => rfl

theorem parseExtractResponse_empty_on_unparseable_witness :
    jsonParse "not json at all" = none ∧
    bracketSpan "not json at all" = none ∧
    parseExtractResponse "not json at all" = [] := by
  refine ⟨rfl, rfl, parseExtractResponse_empty_on_unparseable "not json at all" rfl ?_⟩
  intro sp hsp l
  rw [show bracketSpan "not json at all" = none from rfl] at hsp
  cases hsp

/-- JS `String.prototype.toLowerCase` (on the ASCII range that the error
classification inspects), written over the character list so that it
reduces in the kernel. -/
def toLowerStr (s : String) : String := String.mk (s.toList.map Char.toLower)

/-- Is `needle` a leading segment of `hay`? (elementwise comparison). -/
def listLeads : List Char → List Char → Bool
  | [], _ => true
  | _ :: _, [] => false
  | a :: as, b :: bs => a == b && listLeads as bs

def listHasSub (needle : List Char) : List Char → Bool
  | [] => listLeads needle []
  | c :: t => listLeads needle (c :: t) || listHasSub needle t

/-- JS `hay.includes(sub)`. -/
def strIncludes (hay sub : String) : Bool := listHasSub sub.toList hay.toList

/-- Quota classification of `callGeminiExtractWithRetry`
(src/services/gemini.ts line 177). -/
def quotaMsg (m : String) : Bool :=
  strIncludes m "429" || strIncludes m "quota" || strIncludes m "limit" ||
    strIncludes m "exceeded"

/-- Server/network classification (src/services/gemini.ts line 195). -/
def serverMsg (m : String) : Bool :=
  strIncludes m "500" || strIncludes m "503" || strIncludes m "xhr" ||
    strIncludes m "fetch"

/-- Safety classification (src/services/gemini.ts line 200). -/
def safetyMsg (m : String) : Bool :=
  strIncludes m "safety" || strIncludes m "blocked"

/-- Outcome of one run of the Resilient Call Executor: the value returned
or error propagated, the number of attempts actually made, and the backoff
sleeps (in ms) performed between attempts, in order. -/
structure RetryRun where
  result : Except String (List Json)
  attempts : Nat
  sleeps : List Nat

/-- The retry loop of `callGeminiExtractWithRetry`
(src/services/gemini.ts lines 159-212, first revision):
`for (attempt = 1; attempt <= retries; attempt++)`, where a successful call
returns its result; on the final attempt the error is rethrown; otherwise
the lowercased message is classified - quota errors sleep 30s/60s/90s
(attempt 1 / 2 / >= 3) and retry, server and network errors sleep
`attempt * 3000` ms and retry, safety errors are rethrown at once, and any
other error sleeps 2000 ms and retries while `attempt < 3`, else is
rethrown. The callable is modelled as a map from the attempt number
(1-based) to that attempt's outcome; `made` counts completed attempts and
`fuel = retries - made` counts remaining loop iterations, so the `fuel = 0`
case is the loop exit (`return []`), reachable only when `retries = 0`. -/
def retryGo (call : Nat → Except String (List Json)) (retries : Nat) :
    Nat → Nat → List Nat → RetryRun
  | 0, made, sleeps => ⟨Except.ok [], made, sleeps⟩
  | fuel + 1, made, sleeps =>
    match call (made + 1) with
    | Except.ok r => ⟨Except.ok r, made + 1, sleeps⟩
    | Except.error e =>
      if made + 1 = retries then ⟨Except.error e, made + 1, sleeps⟩
      else
        if quotaMsg (toLowerStr e) then
          retryGo call retries fuel (made + 1)
            (sleeps ++ [if 3 ≤ made + 1 then 90000 else if made + 1 = 2 then 60000 else 30000])
        else if serverMsg (toLowerStr e) then
          retryGo call retries fuel (made + 1) (sleeps ++ [(made + 1) * 3000])
        else if safetyMsg (toLowerStr e) then
          ⟨Except.error e, made + 1, sleeps⟩
        else if made + 1 < 3 then
          retryGo call retries fuel (made + 1) (sleeps ++ [2000])
        else ⟨Except.error e, made + 1, sleeps⟩

/-- The default retry cap of `callGeminiExtractWithRetry`
(src/services/gemini.ts line 165): `retries = 20`. -/
def retriesDefault : Nat := 20

/-- Embeds `callGeminiExtractWithRetry` (src/services/gemini.ts
lines 159-212, first revision). -/
def callGeminiExtractWithRetry (call : Nat → Except String (List Json))
    (retries : Nat) : RetryRun :=
  retryGo call retries retries 0 []

/-- C6 counterexample: the message "blocked by rate limit" contains
"blocked", so the claim classifies it as a safety error and requires
exactly one attempt with no sleeps; but the executor checks the quota
substrings first ("limit" matches), so the always-failing callable is
retried through all 20 attempts with 19 backoff sleeps. -/
theorem retry_safety_claim_false :
    safetyMsg (toLowerStr "blocked by rate limit") = true ∧
    (callGeminiExtractWithRetry (fun _ => Except.error "blocked by rate limit")
      retriesDefault).attempts = 20 ∧
    (callGeminiExtractWithRetry (fun _ => Except.error "blocked by rate limit")
      retriesDefault).sleeps.length = 19 := by
  refine ⟨by decide, ?_, ?_⟩ <;> rfl

/-- C6 as amended: for every callable that always fails with a message
whose lowercase form contains "safety" or "blocked" AND matches neither
the quota substrings ("429", "quota", "limit", "exceeded") nor the
server/network substrings ("500", "503", "xhr", "fetch"), the executor
propagates the failure after exactly one attempt, with no retry and no
backoff sleep. -/
theorem retry_safety_one_attempt (msg : String) (retries : Nat) (h1 : 1 ≤ retries)
    (h2 : safetyMsg (toLowerStr msg) = true)
    (h3 : quotaMsg (toLowerStr msg) = false)
    (h4 : serverMsg (toLowerStr msg) = false) :
    callGeminiExtractWithRetry (fun _ => Except.error msg) retries =
      ⟨Except.error msg, 1, []⟩ := by
  obtain ⟨f, rfl⟩ : ∃ f, retries = f + 1 := ⟨retries - 1, by omega⟩
  show retryGo _ (f + 1) (f + 1) 0 [] = _
  cases f with
  | zero => rfl
  | succ g =>
    have hne : ¬((0 : Nat) + 1 = g + 1 + 1) := by omega
    simp only [retryGo, if_neg hne, h2, h3, h4, Bool.false_eq_true, if_false, if_true]

theorem retry_safety_one_attempt_witness :
    1 ≤ retriesDefault ∧
    safetyMsg (toLowerStr "safety") = true ∧
    quotaMsg (toLowerStr "safety") = false ∧
    serverMsg (toLowerStr "safety") = false ∧
    callGeminiExtractWithRetry (fun _ => Except.error "safety") retriesDefault =
      ⟨Except.error "safety", 1, []⟩ :=
  ⟨by decide, by decide, by decide, by decide,
    retry_safety_one_attempt "safety" retriesDefault (by decide) (by decide)
      (by decide) (by decide)⟩

/-- The contract of the Resilient Call Executor for a run whose attempts
start after `lo` completed ones: some attempt count `n` in
`(lo, retries]` is reached, every attempt strictly before `n` failed, and
the run's outcome is exactly attempt `n`'s outcome (the first success, or
the failure of the last attempt made). -/
def RetrySpec (call : Nat → Except String (List Json)) (retries lo : Nat)
    (out : RetryRun) : Prop :=
  ∃ n, lo + 1 ≤ n ∧ n ≤ retries ∧ out.attempts = n ∧
    (∀ k, lo + 1 ≤ k → k < n → ∃ e, call k = Except.error e) ∧
    ((∃ r, call n = Except.ok r ∧ out.result = Except.ok r) ∨
     (∃ e, call n = Except.error e ∧ out.result = Except.error e))

theorem retrySpec_extend (call : Nat → Except String (List Json))
    (retries made : Nat) (out : RetryRun) (e : String)
    (hc : call (made + 1) = Except.error e)
    (h : RetrySpec call retries (made + 1) out) :
    RetrySpec call retries made out := by
  obtain ⟨n, hn1, hn2, hn3, hn4, hn5⟩ := h
  refine ⟨n, by omega, hn2, hn3, ?_, hn5⟩
  intro k hk1 hk2
  by_cases hk : k = made + 1
  · exact ⟨e, hk ▸ hc⟩
  · exact hn4 k (by omega) hk2

theorem retryGo_meets_spec (call : Nat → Except String (List Json)) (retries : Nat) :
    ∀ fuel made sleeps, fuel + made = retries → 1 ≤ fuel →
      RetrySpec call retries made (retryGo call retries fuel made sleeps) := by
  intro fuel
  induction fuel with
  | zero => intro made sleeps h hf; exact absurd hf (by omega)
  | succ f ih =>
    intro made sleeps h hf
    cases hc : call (made + 1) with
    | ok r =>
      have heq : retryGo call retries (f + 1) made sleeps = ⟨Except.ok r, made + 1, sleeps⟩ := by
        simp only [retryGo, hc]
      rw [heq]
      exact ⟨made + 1, le_refl _, by omega, rfl, fun k hk1 hk2 => absurd hk2 (by omega),
        Or.inl ⟨r, hc, rfl⟩⟩
    | error e =>
      by_cases hlast : made + 1 = retries
      · have heq : retryGo call retries (f + 1) made sleeps =
            ⟨Except.error e, made + 1, sleeps⟩ := by
          simp only [retryGo, hc, if_pos hlast]
        rw [heq]
        exact ⟨made + 1, le_refl _, by omega, rfl, fun k hk1 hk2 => absurd hk2 (by omega),
          Or.inr ⟨e, hc, rfl⟩⟩
      · have hfs : 1 ≤ f := by omega
        by_cases hq : quotaMsg (toLowerStr e) = true
        · have heq : retryGo call retries (f + 1) made sleeps =
              retryGo call retries f (made + 1)
                (sleeps ++ [if 3 ≤ made + 1 then 90000 else if made + 1 = 2 then 60000 else 30000]) := by
            simp only [retryGo, hc, if_neg hlast, hq, if_true]
          rw [heq]
          exact retrySpec_extend call retries made _ e hc (ih (made + 1) _ (by omega) hfs)
        · by_cases hs : serverMsg (toLowerStr e) = true
          · have heq : retryGo call retries (f + 1) made sleeps =
                retryGo call retries f (made + 1) (sleeps ++ [(made + 1) * 3000]) := by
              simp only [retryGo, hc, if_neg hlast, hq, hs, Bool.false_eq_true, if_false, if_true]
            rw [heq]
            exact retrySpec_extend call retries made _ e hc (ih (made + 1) _ (by omega) hfs)
          · by_cases hsa : safetyMsg (toLowerStr e) = true
            · have heq : retryGo call retries (f + 1) made sleeps =
                  ⟨Except.error e, made + 1, sleeps⟩ := by
                simp only [retryGo, hc, if_neg hlast, hq, hs, hsa, Bool.false_eq_true,
                  if_false, if_true]
              rw [heq]
              exact ⟨made + 1, le_refl _, by omega, rfl,
                fun k hk1 hk2 => absurd hk2 (by omega), Or.inr ⟨e, hc, rfl⟩⟩
            · by_cases hsm : made + 1 < 3
              · have heq : retryGo call retries (f + 1) made sleeps =
                    retryGo call retries f (made + 1) (sleeps ++ [2000]) := by
                  simp only [retryGo, hc, if_neg hlast, hq, hs, hsa, Bool.false_eq_true,
                    if_false, if_pos hsm]
                rw [heq]
                exact retrySpec_extend call retries made _ e hc (ih (made + 1) _ (by omega) hfs)
              · have heq : retryGo call retries (f + 1) made sleeps =
                    ⟨Except.error e, made + 1, sleeps⟩ := by
                  simp only [retryGo, hc, if_neg hlast, hq, hs, hsa, Bool.false_eq_true,
                    if_false, if_neg hsm]
                rw [heq]
                exact ⟨made + 1, le_refl _, by omega, rfl,
                  fun k hk1 hk2 => absurd hk2 (by omega), Or.inr ⟨e, hc, rfl⟩⟩

/-- C7: for every callable and every positive attempt cap, the executor
terminates after at most `retries` attempts; all attempts before the last
one made failed, and the run's outcome is exactly the outcome of the last
attempt made - the first successful result, or the propagated failure of
the final attempt. -/
theorem retry_bounded_and_faithful (call : Nat → Except String (List Json))
    (retries : Nat) (h : 1 ≤ retries) :
    RetrySpec call retries 0 (callGeminiExtractWithRetry call retries) :=
  retryGo_meets_spec call retries retries 0 [] (by omega) h

theorem retry_bounded_and_faithful_witness :
    1 ≤ retriesDefault ∧
    RetrySpec (fun k => if k = 2 then Except.ok [] else Except.error "503")
      retriesDefault 0
      (callGeminiExtractWithRetry
        (fun k => if k = 2 then Except.ok [] else Except.error "503") retriesDefault) :=
  ⟨by decide,
    retry_bounded_and_faithful
      (fun k => if k = 2 then Except.ok [] else Except.error "503")
      retriesDefault (by decide)⟩

/-- JS `s.endsWith(suffix)`, via reversed character lists. -/
def endsWithStr (s suffix : String) : Bool :=
  listLeads suffix.toList.reverse s.toList.reverse

/-- A file input as in src/types.ts: base64 payload, MIME type, name. -/
structure FileData where
  base64 : String
  mimeType : String
  name : String

/-- The payload of one Resilient-Executor call made by the orchestrator:
the extraction goal, the raw text sent, and the optional file part. -/
structure CallDesc where
  prompt : String
  rawText : String
  fileData : Option FileData

/-- Environment for `extractStructuredData`: outcomes of the external
collaborators. `pdfLoad` models `PDFDocument.load` + `getPageCount`
(base64 to page count, or a decode error); `saveChunk` models
`PDFDocument.create` + `copyPages` + `saveAsBase64` for one chunk's page
indices; `callExtract` maps the k-th executor invocation of the run
(0-based) and its payload to that call's outcome. -/
structure OrchEnv where
  pdfLoad : String → Except String Nat
  saveChunk : List Nat → Except String String
  callExtract : Nat → CallDesc → Except String (List Json)

/-- One full orchestrator run: the returned (or thrown) result, the
executor calls in order, the progress values delivered to `onProgress` in
order, and - when the PDF try-block failed and fell back to standard
mode - the number of chunk progress values that had already been
delivered (`none` when no PDF fallback happened). -/
structure OrchRun where
  result : Except String (List Json)
  calls : List CallDesc
  progress : List Nat
  pdfFellBackAfter : Option Nat

/-- The PDF check of src/services/gemini.ts lines 62-65:
`fileData.mimeType === "application/pdf" || fileData.name.toLowerCase().endsWith(".pdf")`. -/
def isPdfFile (fd : FileData) : Bool :=
  fd.mimeType == "application/pdf" || endsWithStr (toLowerStr fd.name) ".pdf"

/-- `Math.round(5 + (k / n) * 90)` (src/services/gemini.ts lines 114 and
145), for `k` chunks finished out of `n`: in exact rational arithmetic
`Math.round(x) = floor(x + 1/2)` and
`floor(5 + 90 * k / n + 1 / 2) = (11 * n + 180 * k) / (2 * n)`
in natural division. -/
def chunkPercentage (k n : Nat) : Nat := (11 * n + 180 * k) / (2 * n)

/-- The chunk payload of the PDF loop (src/services/gemini.ts lines
105-109): the original file spread with the sub-document base64 and the
MIME type forced to `application/pdf`. -/
def mkChunkDesc (prompt rawText : String) (fd : FileData) (b64 : String) : CallDesc :=
  ⟨prompt, rawText, some ⟨b64, "application/pdf", fd.name⟩⟩

/-- Result of the PDF chunk loop: `outcome = some items` when the loop ran
to completion, `none` when an exception was thrown into the catch;
`calls` and `prog` are the executor calls made and chunk progress values
delivered before that point. -/
structure PdfLoopRes where
  outcome : Option (List Json)
  calls : List CallDesc
  prog : List Nat

/-- The PDF chunk loop of src/services/gemini.ts lines 87-116, processing
chunks sequentially: re-encode the chunk (a failure throws to the catch),
call the executor (a failure throws to the catch), aggregate by
concatenation, then report `Math.round(5 + ((i+1)/n)*90)`. The 10-second
inter-chunk throttle delay has no observable effect in this model. -/
def pdfLoopGo (env : OrchEnv) (prompt rawText : String) (fd : FileData) (n : Nat) :
    List (List Nat) → Nat → Nat → PdfLoopRes
  | [], _, _ => ⟨some [], [], []⟩
  | c :: rest, i, idx =>
    match env.saveChunk c with
    | Except.error _ => ⟨none, [], []⟩
    | Except.ok b64 =>
      let desc := mkChunkDesc prompt rawText fd b64
      match env.callExtract idx desc with
      | Except.error _ => ⟨none, [desc], []⟩
      | Except.ok items =>
        let r := pdfLoopGo env prompt rawText fd n rest (i + 1) (idx + 1)
        ⟨r.outcome.map (fun l => items ++ l), desc :: r.calls,
          chunkPercentage (i + 1) n :: r.prog⟩

/-- Result of the large-text chunk loop: the aggregated result or the
propagated error, the executor calls made, and the chunk progress values. -/
structure TextLoopRes where
  result : Except String (List Json)
  calls : List CallDesc
  prog : List Nat

/-- The large-text chunk loop of src/services/gemini.ts lines 135-147:
process chunks sequentially, with no try/catch - an executor failure
propagates to the caller. -/
def textLoopGo (env : OrchEnv) (prompt : String) (n : Nat) :
    List (List Char) → Nat → Nat → TextLoopRes
  | [], _, _ => ⟨Except.ok [], [], []⟩
  | c :: rest, i, idx =>
    let desc : CallDesc := ⟨prompt, String.mk c, none⟩
    match env.callExtract idx desc with
    | Except.error e => ⟨Except.error e, [desc], []⟩
    | Except.ok items =>
      let r := textLoopGo env prompt n rest (i + 1) (idx + 1)
      ⟨r.result.map (fun l => items ++ l), desc :: r.calls,
        chunkPercentage (i + 1) n :: r.prog⟩

/-- `MAX_TEXT_LENGTH = 12000` (src/services/gemini.ts line 127). -/
def maxTextLen : Nat := 12000

/-- Steps 2 and 3 of `extractStructuredData` (src/services/gemini.ts lines
125-155), entered directly or after the PDF branch fell through: if there
is no file and the raw text exceeds `maxTextLen`, report 5 and run the
text chunk loop; otherwise report 10, make the single standard executor
call, and report 100 on success (an executor failure propagates).
`prog`, `fellBack`, `idx` and `calls` carry what the PDF branch already
did. -/
def textOrStandard (env : OrchEnv) (prompt rawText : String)
    (fileData : Option FileData) (prog : List Nat) (fellBack : Option Nat)
    (idx : Nat) (calls : List CallDesc) : OrchRun :=
  if fileData.isNone && decide (maxTextLen < rawText.length) then
    let chunks := chunkString rawText.toList maxTextLen
    let r := textLoopGo env prompt chunks.length chunks 0 idx
    ⟨r.result, calls ++ r.calls, (prog ++ [5]) ++ r.prog, fellBack⟩
  else
    match env.callExtract idx ⟨prompt, rawText, fileData⟩ with
    | Except.ok items =>
      ⟨Except.ok items, calls ++ [⟨prompt, rawText, fileData⟩], (prog ++ [10]) ++ [100], fellBack⟩
    | Except.error e =>
      ⟨Except.error e, calls ++ [⟨prompt, rawText, fileData⟩], prog ++ [10], fellBack⟩

/-- What happens after the PDF chunk loop (src/services/gemini.ts lines
84-123): a completed loop returns the aggregate with progress `5 ::
chunk percentages`; a loop that threw falls into the catch and continues
with standard mode, carrying the calls and progress made so far. -/
def pdfAfterLoop (env : OrchEnv) (prompt rawText : String) (fd : FileData)
    (r : PdfLoopRes) : OrchRun :=
  match r.outcome with
  | some items => ⟨Except.ok items, r.calls, 5 :: r.prog, none⟩
  | none =>
    textOrStandard env prompt rawText (some fd) (5 :: r.prog)
      (some r.prog.length) r.calls.length r.calls

def pdfBranch (env : OrchEnv) (prompt rawText : String) (fd : FileData)
    (loaded : Except String Nat) : OrchRun :=
  match loaded with
  | Except.error _ => textOrStandard env prompt rawText (some fd) [5] (some 0) 0 []
  | Except.ok totalPages =>
    if 1 < totalPages then
      pdfAfterLoop env prompt rawText fd
        (pdfLoopGo env prompt rawText fd (chunkArray (List.range totalPages) 1).length
          (chunkArray (List.range totalPages) 1) 0 0)
    else textOrStandard env prompt rawText (some fd) [5] none 0 []

/-- Embeds `extractStructuredData` (src/services/gemini.ts lines 51-156,
first revision, `MAX_PAGES_PER_CHUNK = 1`): for a PDF file, report 5, load
the document, and when it has more than one page run the chunk loop and
return its aggregate; the whole PDF branch is wrapped in a try/catch whose
catch falls through to standard mode, keeping whatever progress was
already reported. Text splitting and standard execution are in
`textOrStandard`. -/
def extractStructuredData (env : OrchEnv) (prompt rawText : String)
    (fileData : Option FileData) : OrchRun :=
  match fileData with
  | some fd =>
    if isPdfFile fd then pdfBranch env prompt rawText fd (env.pdfLoad fd.base64)
    else textOrStandard env prompt rawText (some fd) [] none 0 []
  | none => textOrStandard env prompt rawText none [] none 0 []

/-- C5: if loading the PDF fails (corrupt container), the orchestrator
catches the decode failure and falls back to a single unchunked executor
call carrying the whole original input; the run's result is exactly that
call's outcome, so the decode failure itself never fails the request. -/
theorem pdf_decode_falls_back_to_single_call (env : OrchEnv)
    (prompt rawText : String) (fd : FileData) (e : String)
    (hpdf : isPdfFile fd = true)
    (hload : env.pdfLoad fd.base64 = Except.error e) :
    (extractStructuredData env prompt rawText (some fd)).calls =
      [⟨prompt, rawText, some fd⟩] ∧
    (extractStructuredData env prompt rawText (some fd)).result =
      env.callExtract 0 ⟨prompt, rawText, some fd⟩ := by
  have hrun : extractStructuredData env prompt rawText (some fd) =
      textOrStandard env prompt rawText (some fd) [5] (some 0) 0 [] := by
    have h1 : extractStructuredData env prompt rawText (some fd) =
        (if isPdfFile fd then pdfBranch env prompt rawText fd (env.pdfLoad fd.base64)
         else textOrStandard env prompt rawText (some fd) [] none 0 []) := rfl
    rw [h1, hpdf, if_pos rfl, hload]
    rfl
  rw [hrun]
  unfold textOrStandard
  simp only [Option.isNone_some, Bool.false_and, Bool.false_eq_true, if_false]
  cases hc : env.callExtract 0 ⟨prompt, rawText, some fd⟩ with
  | ok items => exact ⟨rfl, rfl⟩
  | error msg => exact ⟨rfl, rfl⟩

def c5Env : OrchEnv where
  pdfLoad := fun _ => Except.error "bad pdf"
  saveChunk := fun _ => Except.ok ""
  callExtract := fun _ _ => Except.ok []

def c5File : FileData where
  base64 := "zz"
  mimeType := "application/pdf"
  name := "doc.pdf"

theorem pdf_decode_falls_back_to_single_call_witness :
    isPdfFile c5File = true ∧
    c5Env.pdfLoad c5File.base64 = Except.error "bad pdf" ∧
    (extractStructuredData c5Env "p" "t" (some c5File)).calls =
      [⟨"p", "t", some c5File⟩] ∧
    (extractStructuredData c5Env "p" "t" (some c5File)).result =
      c5Env.callExtract 0 ⟨"p", "t", some c5File⟩ := by
  refine ⟨by decide, rfl, ?_⟩
  exact pdf_decode_falls_back_to_single_call c5Env "p" "t" c5File "bad pdf"
    (by decide) rfl

theorem chunkPercentage_mono (n k k' : Nat) (h : k ≤ k') :
    chunkPercentage k n ≤ chunkPercentage k' n :=
  Nat.div_le_div_right (by omega)

theorem chunkPercentage_le_95 (n k : Nat) (hn : 0 < n) (hk : k ≤ n) :
    chunkPercentage k n ≤ 95 := by
  unfold chunkPercentage
  have h2 : (11 * n + 180 * k) / (2 * n) ≤ 191 * n / (2 * n) :=
    Nat.div_le_div_right (by omega)
  have h3 : n * 191 / (n * 2) = 95 := Nat.mul_div_mul_left 191 2 hn
  rw [Nat.mul_comm n 191, Nat.mul_comm n 2] at h3
  omega

theorem five_le_chunkPercentage (n k : Nat) (hn : 0 < n) (hk : 1 ≤ k) :
    5 ≤ chunkPercentage k n := by
  unfold chunkPercentage
  have h2 : 10 * n / (2 * n) ≤ (11 * n + 180 * k) / (2 * n) :=
    Nat.div_le_div_right (by omega)
  have h3 : n * 10 / (n * 2) = 5 := Nat.mul_div_mul_left 10 2 hn
  rw [Nat.mul_comm n 10, Nat.mul_comm n 2] at h3
  omega

/-- The chunk progress values reported by the PDF loop are an initial run
of `chunkPercentage (i+1) n, chunkPercentage (i+2) n, ...`. -/
theorem pdfLoopGo_prog_shape (env : OrchEnv) (prompt rawText : String)
    (fd : FileData) (n : Nat) :
    ∀ cs i idx, ∃ m, m ≤ cs.length ∧
      (pdfLoopGo env prompt rawText fd n cs i idx).prog =
        (List.range' (i + 1) m).map (fun k => chunkPercentage k n) := by
  intro cs
  induction cs with
  | nil => intro i idx; exact ⟨0, Nat.le_refl _, rfl⟩
  | cons c rest ih =>
    intro i idx
    cases hs : env.saveChunk c with
    | error e =>
      refine ⟨0, Nat.zero_le _, ?_⟩
      simp only [pdfLoopGo, hs]
      rfl
    | ok b64 =>
      cases hc : env.callExtract idx (mkChunkDesc prompt rawText fd b64) with
      | error e =>
        refine ⟨0, Nat.zero_le _, ?_⟩
        simp only [pdfLoopGo, hs, hc]
        rfl
      | ok items =>
        obtain ⟨m, hm, heq⟩ := ih (i + 1) (idx + 1)
        refine ⟨m + 1, by simpa using Nat.succ_le_succ hm, ?_⟩
        simp only [pdfLoopGo, hs, hc]
        rw [List.range'_succ, List.map_cons]
        show chunkPercentage (i + 1) n :: _ = _
        rw [heq]

/-- The chunk progress values reported by the text loop are an initial run
of `chunkPercentage (i+1) n, chunkPercentage (i+2) n, ...`. -/
theorem textLoopGo_prog_shape (env : OrchEnv) (prompt : String) (n : Nat) :
    ∀ cs i idx, ∃ m, m ≤ cs.length ∧
      (textLoopGo env prompt n cs i idx).prog =
        (List.range' (i + 1) m).map (fun k => chunkPercentage k n) := by
  intro cs
  induction cs with
  | nil => intro i idx; exact ⟨0, Nat.le_refl _, rfl⟩
  | cons c rest ih =>
    intro i idx
    cases hc : env.callExtract idx ⟨prompt, String.mk c, none⟩ with
    | error e =>
      refine ⟨0, Nat.zero_le _, ?_⟩
      simp only [textLoopGo, hc]
      rfl
    | ok items =>
      obtain ⟨m, hm, heq⟩ := ih (i + 1) (idx + 1)
      refine ⟨m + 1, by simpa using Nat.succ_le_succ hm, ?_⟩
      simp only [textLoopGo, hc]
      rw [List.range'_succ, List.map_cons]
      show chunkPercentage (i + 1) n :: _ = _
      rw [heq]

theorem chain_cons_pct (n : Nat) :
    ∀ m start p0, p0 ≤ chunkPercentage start n →
      List.Chain' (· ≤ ·)
        (p0 :: (List.range' start m).map (fun k => chunkPercentage k n)) := by
  intro m
  induction m with
  | zero => intro start p0 h; simp
  | succ m ih =>
    intro start p0 h
    rw [List.range'_succ, List.map_cons, List.chain'_cons]
    exact ⟨h, ih (start + 1) (chunkPercentage start n)
      (chunkPercentage_mono n start (start + 1) (by omega))⟩

theorem mem_pct_le_95 (n m start : Nat) (hn : 0 < n) (hbound : start + m ≤ n + 1) :
    ∀ p ∈ (List.range' start m).map (fun k => chunkPercentage k n), p ≤ 95 := by
  intro p hp
  obtain ⟨k, hk, hkeq⟩ := List.mem_map.mp hp
  have hk2 : start ≤ k ∧ k < start + m := List.mem_range'_1.mp hk
  rw [← hkeq]
  exact chunkPercentage_le_95 n k hn (by omega)

theorem textOrStandard_fellBack (env : OrchEnv) (prompt rawText : String)
    (fileData : Option FileData) (prog : List Nat) (fellBack : Option Nat)
    (idx : Nat) (calls : List CallDesc) :
    (textOrStandard env prompt rawText fileData prog fellBack idx calls).pdfFellBackAfter =
      fellBack := by
  unfold textOrStandard
  by_cases hcond : (fileData.isNone && decide (maxTextLen < rawText.length)) = true
  · rw [if_pos hcond]
  · rw [if_neg hcond]
    cases hc : env.callExtract idx ⟨prompt, rawText, fileData⟩ with
    | ok items => rfl
    | error e => rfl

theorem chunkString_len_pos (s : List Char) (h : maxTextLen < s.length) :
    0 < (chunkString s maxTextLen).length := by
  rw [chunkString_eq_chunkArray s maxTextLen (by decide),
      chunkArray_length maxTextLen (by decide) s]
  have h12 : (0 : Nat) < maxTextLen := by decide
  have := (Nat.le_div_iff_mul_le h12 (x := 1) (y := s.length + maxTextLen - 1)).mpr
    (by unfold maxTextLen at *; omega)
  omega

theorem textOrStandard_le_100 (env : OrchEnv) (prompt rawText : String)
    (fileData : Option FileData) (prog : List Nat) (fellBack : Option Nat)
    (idx : Nat) (calls : List CallDesc)
    (hb : ∀ p ∈ prog, p ≤ 100) :
    ∀ p ∈ (textOrStandard env prompt rawText fileData prog fellBack idx calls).progress,
      p ≤ 100 := by
  unfold textOrStandard
  by_cases hcond : (fileData.isNone && decide (maxTextLen < rawText.length)) = true
  · rw [if_pos hcond]
    intro p hp
    have hlen : maxTextLen < rawText.length := by
      have := (Bool.and_eq_true _ _).mp hcond
      exact of_decide_eq_true this.2
    have hlen2 : maxTextLen < rawText.toList.length := by
      rw [show rawText.toList.length = rawText.length from rfl]
      exact hlen
    have hn : 0 < (chunkString rawText.toList maxTextLen).length :=
      chunkString_len_pos rawText.toList hlen2
    rcases List.mem_append.mp hp with h | h
    · rcases List.mem_append.mp h with h2 | h2
      · exact hb p h2
      · have : p = 5 := by simpa using h2
        omega
    · obtain ⟨m, hm, heq⟩ := textLoopGo_prog_shape env prompt
        (chunkString rawText.toList maxTextLen).length
        (chunkString rawText.toList maxTextLen) 0 idx
      rw [heq] at h
      have := mem_pct_le_95 (chunkString rawText.toList maxTextLen).length m
        (0 + 1) hn (by omega) p h
      omega
  · rw [if_neg hcond]
    cases env.callExtract idx ⟨prompt, rawText, fileData⟩ with
    | ok items =>
      intro p hp
      rcases List.mem_append.mp hp with h | h
      · rcases List.mem_append.mp h with h2 | h2
        · exact hb p h2
        · have : p = 10 := by simpa using h2
          omega
      · have : p = 100 := by simpa using h
        omega
    | error e =>
      intro p hp
      rcases List.mem_append.mp hp with h | h
      · exact hb p h
      · have : p = 10 := by simpa using h
        omega

theorem textOrStandard_chain (env : OrchEnv) (prompt rawText : String)
    (fileData : Option FileData) (prog : List Nat) (fellBack : Option Nat)
    (idx : Nat) (calls : List CallDesc)
    (hp : prog = [] ∨ prog = [5]) :
    List.Chain' (· ≤ ·)
      (textOrStandard env prompt rawText fileData prog fellBack idx calls).progress := by
  unfold textOrStandard
  by_cases hcond : (fileData.isNone && decide (maxTextLen < rawText.length)) = true
  · rw [if_pos hcond]
    have hlen : maxTextLen < rawText.length := by
      have := (Bool.and_eq_true _ _).mp hcond
      exact of_decide_eq_true this.2
    have hlen2 : maxTextLen < rawText.toList.length := by
      rw [show rawText.toList.length = rawText.length from rfl]
      exact hlen
    have hn : 0 < (chunkString rawText.toList maxTextLen).length :=
      chunkString_len_pos rawText.toList hlen2
    obtain ⟨m, hm, heq⟩ := textLoopGo_prog_shape env prompt
      (chunkString rawText.toList maxTextLen).length
      (chunkString rawText.toList maxTextLen) 0 idx
    show List.Chain' (· ≤ ·)
      ((prog ++ [5]) ++ (textLoopGo env prompt
        (chunkString rawText.toList maxTextLen).length
        (chunkString rawText.toList maxTextLen) 0 idx).prog)
    rw [heq]
    have hch : List.Chain' (· ≤ ·)
        (5 :: (List.range' (0 + 1) m).map
          (fun k => chunkPercentage k (chunkString rawText.toList maxTextLen).length)) :=
      chain_cons_pct _ m (0 + 1) 5
        (five_le_chunkPercentage _ (0 + 1) hn (by omega))
    rcases hp with h | h
    · rw [h]
      simpa using hch
    · rw [h]
      show List.Chain' (· ≤ ·) (5 :: 5 :: _)
      rw [List.chain'_cons]
      exact ⟨by omega, hch⟩
  · rw [if_neg hcond]
    cases hc : env.callExtract idx ⟨prompt, rawText, fileData⟩ with
    | ok items =>
      rcases hp with h | h
      · rw [h]
        show List.Chain' (· ≤ ·) (([] ++ [10]) ++ [100])
        norm_num [List.chain'_cons]
      · rw [h]
        show List.Chain' (· ≤ ·) (([5] ++ [10]) ++ [100])
        norm_num [List.chain'_cons]
    | error e =>
      rcases hp with h | h
      · rw [h]
        show List.Chain' (· ≤ ·) ([] ++ [10])
        norm_num
      · rw [h]
        show List.Chain' (· ≤ ·) ([5] ++ [10])
        norm_num [List.chain'_cons]

theorem pdf_chunk_path_spec (env : OrchEnv) (prompt rawText : String) (fd : FileData)
    (cs : List (List Nat)) (hn : 0 < cs.length) :
    (∀ p ∈ (pdfAfterLoop env prompt rawText fd
        (pdfLoopGo env prompt rawText fd cs.length cs 0 0)).progress, p ≤ 100) ∧
    (((pdfAfterLoop env prompt rawText fd
          (pdfLoopGo env prompt rawText fd cs.length cs 0 0)).pdfFellBackAfter = none ∨
      (pdfAfterLoop env prompt rawText fd
          (pdfLoopGo env prompt rawText fd cs.length cs 0 0)).pdfFellBackAfter = some 0) →
      List.Chain' (· ≤ ·) (pdfAfterLoop env prompt rawText fd
        (pdfLoopGo env prompt rawText fd cs.length cs 0 0)).progress) := by
  obtain ⟨m, hm, heq⟩ := pdfLoopGo_prog_shape env prompt rawText fd cs.length cs 0 0
  unfold pdfAfterLoop
  cases ho : (pdfLoopGo env prompt rawText fd cs.length cs 0 0).outcome with
  | some items =>
    constructor
    · intro p hp
      rcases List.mem_cons.mp hp with h | h
      · omega
      · rw [heq] at h
        have := mem_pct_le_95 cs.length m (0 + 1) hn (by omega) p h
        omega
    · intro _
      show List.Chain' (· ≤ ·)
        (5 :: (pdfLoopGo env prompt rawText fd cs.length cs 0 0).prog)
      rw [heq]
      exact chain_cons_pct cs.length m (0 + 1) 5
        (five_le_chunkPercentage cs.length (0 + 1) hn (by omega))
  | none =>
    constructor
    · apply textOrStandard_le_100
      intro p hp
      rcases List.mem_cons.mp hp with h | h
      · omega
      · rw [heq] at h
        have := mem_pct_le_95 cs.length m (0 + 1) hn (by omega) p h
        omega
    · intro hfb
      rw [textOrStandard_fellBack] at hfb
      rcases hfb with h | h
      · cases h
      · have hlen : (pdfLoopGo env prompt rawText fd cs.length cs 0 0).prog.length = 0 := by
          injection h
        have hnil : (pdfLoopGo env prompt rawText fd cs.length cs 0 0).prog = [] :=
          List.eq_nil_of_length_eq_zero hlen
        apply textOrStandard_chain
        right
        rw [hnil]

/-- C9 as amended: on every strategy path, every value delivered to the
progress callback is a natural number at most 100. The delivered sequence
is monotonically non-decreasing on every path EXCEPT the one where PDF
chunk preprocessing reported at least one chunk percentage and then
failed over to the standard single-call mode: there the standard mode's
initial `onProgress(10)` can follow a larger chunk percentage (the
original claim is false on that path - see the counterexample). -/
theorem progress_bounded_and_conditionally_monotone (env : OrchEnv)
    (prompt rawText : String) (fileData : Option FileData) :
    (∀ p ∈ (extractStructuredData env prompt rawText fileData).progress, p ≤ 100) ∧
    (((extractStructuredData env prompt rawText fileData).pdfFellBackAfter = none ∨
      (extractStructuredData env prompt rawText fileData).pdfFellBackAfter = some 0) →
      List.Chain' (· ≤ ·) (extractStructuredData env prompt rawText fileData).progress) := by
  cases fileData with
  | none =>
    have h : extractStructuredData env prompt rawText none =
        textOrStandard env prompt rawText none [] none 0 [] := rfl
    rw [h]
    exact ⟨textOrStandard_le_100 env prompt rawText none [] none 0 []
        (fun p hp => absurd hp (List.not_mem_nil p)),
      fun _ => textOrStandard_chain env prompt rawText none [] none 0 [] (Or.inl rfl)⟩
  | some fd =>
    by_cases hpdf : isPdfFile fd = true
    · have h : extractStructuredData env prompt rawText (some fd) =
          pdfBranch env prompt rawText fd (env.pdfLoad fd.base64) := by
        show (if isPdfFile fd = true then
            pdfBranch env prompt rawText fd (env.pdfLoad fd.base64)
          else textOrStandard env prompt rawText (some fd) [] none 0 []) = _
        rw [if_pos hpdf]
      rw [h]
      cases hload : env.pdfLoad fd.base64 with
      | error e =>
        have h2 : pdfBranch env prompt rawText fd (Except.error e) =
            textOrStandard env prompt rawText (some fd) [5] (some 0) 0 [] := rfl
        rw [h2]
        refine ⟨textOrStandard_le_100 env prompt rawText (some fd) [5] (some 0) 0 [] ?_,
          fun _ => textOrStandard_chain env prompt rawText (some fd) [5] (some 0) 0 []
            (Or.inr rfl)⟩
        intro p hp
        have : p = 5 := by simpa using hp
        omega
      | ok totalPages =>
        by_cases hpg : 1 < totalPages
        · have h2 : pdfBranch env prompt rawText fd (Except.ok totalPages) =
              pdfAfterLoop env prompt rawText fd
                (pdfLoopGo env prompt rawText fd
                  (chunkArray (List.range totalPages) 1).length
                  (chunkArray (List.range totalPages) 1) 0 0) := by
            show (if 1 < totalPages then _ else _) = _
            rw [if_pos hpg]
          rw [h2]
          apply pdf_chunk_path_spec
          rw [chunkArray_length 1 (by omega) (List.range totalPages), List.length_range]
          omega
        · have h2 : pdfBranch env prompt rawText fd (Except.ok totalPages) =
              textOrStandard env prompt rawText (some fd) [5] none 0 [] := by
            show (if 1 < totalPages then _ else _) = _
            rw [if_neg hpg]
          rw [h2]
          refine ⟨textOrStandard_le_100 env prompt rawText (some fd) [5] none 0 [] ?_,
            fun _ => textOrStandard_chain env prompt rawText (some fd) [5] none 0 []
              (Or.inr rfl)⟩
          intro p hp
          have : p = 5 := by simpa using hp
          omega
    · have h : extractStructuredData env prompt rawText (some fd) =
          textOrStandard env prompt rawText (some fd) [] none 0 [] := by
        show (if isPdfFile fd = true then
            pdfBranch env prompt rawText fd (env.pdfLoad fd.base64)
          else textOrStandard env prompt rawText (some fd) [] none 0 []) = _
        rw [if_neg hpdf]
      rw [h]
      exact ⟨textOrStandard_le_100 env prompt rawText (some fd) [] none 0 []
          (fun p hp => absurd hp (List.not_mem_nil p)),
        fun _ => textOrStandard_chain env prompt rawText (some fd) [] none 0 [] (Or.inl rfl)⟩

def c9Env : OrchEnv where
  pdfLoad := fun _ => Except.ok 2
  saveChunk := fun _ => Except.ok ""
  callExtract := fun idx _ => if idx = 1 then Except.error "boom" else Except.ok []

def c9File : FileData where
  base64 := "zz"
  mimeType := "application/pdf"
  name := "doc.pdf"

/-- C9 counterexample: a two-page PDF whose first chunk succeeds (progress
reaches 50) and whose second chunk's executor call fails is caught by the
PDF try/catch and falls back to standard mode, which reports 10 and then
100 - so one invocation delivers the progress sequence 5, 50, 10, 100,
which is not monotonically non-decreasing, refuting the claim as stated. -/
theorem progress_not_monotone_on_pdf_fallback :
    (extractStructuredData c9Env "p" "t" (some c9File)).progress = [5, 50, 10, 100] ∧
    ¬ List.Chain' (· ≤ ·) (extractStructuredData c9Env "p" "t" (some c9File)).progress := by
  have he : (extractStructuredData c9Env "p" "t" (some c9File)).progress =
      [5, 50, 10, 100] := rfl
  refine ⟨he, ?_⟩
  rw [he]
  intro hch
  have h2 := (List.chain'_cons.mp (List.chain'_cons.mp hch).2).1
  omega

def c9OkEnv : OrchEnv where
  pdfLoad := fun _ => Except.ok 3
  saveChunk := fun _ => Except.ok ""
  callExtract := fun _ _ => Except.ok []

theorem progress_bounded_and_conditionally_monotone_witness :
    (∀ p ∈ (extractStructuredData c9OkEnv "p" "t" (some c9File)).progress, p ≤ 100) ∧
    (extractStructuredData c9OkEnv "p" "t" (some c9File)).pdfFellBackAfter = none ∧
    List.Chain' (· ≤ ·) (extractStructuredData c9OkEnv "p" "t" (some c9File)).progress :=
  ⟨(progress_bounded_and_conditionally_monotone c9OkEnv "p" "t" (some c9File)).1, rfl,
    (progress_bounded_and_conditionally_monotone c9OkEnv "p" "t" (some c9File)).2
      (Or.inl rfl)⟩

namespace MultiFile

/-- Payload of one executor call of the multi-file revision
(src/unnamed/part_004, second revision): goal, raw text, and the list of
file parts sent. -/
structure MCallDesc where
  prompt : String
  rawText : String
  files : List FileData

/-- Environment for the multi-file `extractStructuredData`; `codecLoads`
in the run output counts how often `PDFDocument.load` was invoked (the
Chunker's entry point). -/
structure MOrchEnv where
  pdfLoad : String → Except String Nat
  saveChunk : List Nat → Except String String
  callExtract : Nat → MCallDesc → Except String (List Json)

structure MOrchRun where
  result : Except String (List Json)
  calls : List MCallDesc
  progress : List Nat
  codecLoads : Nat

structure MLoopRes where
  outcome : Option (List Json)
  calls : List MCallDesc
  prog : List Nat

structure MTextLoopRes where
  result : Except String (List Json)
  calls : List MCallDesc
  prog : List Nat

/-- The per-chunk file name of src/unnamed/part_004 line 381. -/
def chunkFileName (name : String) (i : Nat) : String :=
  name ++ "_chunk_" ++ toString i

/-- The single-PDF chunk loop of src/unnamed/part_004 lines 362-389
(`MAX_PAGES_PER_CHUNK = 1`); the chunk file keeps the original MIME type
and gets the `_chunk_i` name suffix. -/
def pdfLoopGo (env : MOrchEnv) (prompt rawText : String) (fd : FileData) (n : Nat) :
    List (List Nat) → Nat → Nat → MLoopRes
  | [], _, _ => ⟨some [], [], []⟩
  | c :: rest, i, idx =>
    match env.saveChunk c with
    | Except.error _ => ⟨none, [], []⟩
    | Except.ok b64 =>
      match env.callExtract idx ⟨prompt, rawText, [⟨b64, fd.mimeType, chunkFileName fd.name i⟩]⟩ with
      | Except.error _ => ⟨none, [⟨prompt, rawText, [⟨b64, fd.mimeType, chunkFileName fd.name i⟩]⟩], []⟩
      | Except.ok items =>
        let r := pdfLoopGo env prompt rawText fd n rest (i + 1) (idx + 1)
        ⟨r.outcome.map (fun l => items ++ l),
          ⟨prompt, rawText, [⟨b64, fd.mimeType, chunkFileName fd.name i⟩]⟩ :: r.calls,
          chunkPercentage (i + 1) n :: r.prog⟩

/-- The large-text chunk loop of src/unnamed/part_004 lines 405-411. -/
def textLoopGo (env : MOrchEnv) (prompt : String) (n : Nat) :
    List (List Char) → Nat → Nat → MTextLoopRes
  | [], _, _ => ⟨Except.ok [], [], []⟩
  | c :: rest, i, idx =>
    match env.callExtract idx ⟨prompt, String.mk c, []⟩ with
    | Except.error e => ⟨Except.error e, [⟨prompt, String.mk c, []⟩], []⟩
    | Except.ok items =>
      let r := textLoopGo env prompt n rest (i + 1) (idx + 1)
      ⟨r.result.map (fun l => items ++ l), ⟨prompt, String.mk c, []⟩ :: r.calls,
        chunkPercentage (i + 1) n :: r.prog⟩

/-- Cases 3 and 4 of src/unnamed/part_004 lines 397-419: text splitting
applies only when no files were supplied; otherwise one standard executor
call with progress 10 then 100. -/
def textOrStandard (env : MOrchEnv) (prompt rawText : String) (files : List FileData)
    (prog : List Nat) (codecLoads idx : Nat) (calls : List MCallDesc) : MOrchRun :=
  if files.isEmpty && decide (maxTextLen < rawText.length) then
    match textLoopGo env prompt (chunkString rawText.toList maxTextLen).length
        (chunkString rawText.toList maxTextLen) 0 idx with
    | r => ⟨r.result, calls ++ r.calls, (prog ++ [5]) ++ r.prog, codecLoads⟩
  else
    match env.callExtract idx ⟨prompt, rawText, files⟩ with
    | Except.ok items =>
      ⟨Except.ok items, calls ++ [⟨prompt, rawText, files⟩], (prog ++ [10]) ++ [100], codecLoads⟩
    | Except.error e =>
      ⟨Except.error e, calls ++ [⟨prompt, rawText, files⟩], prog ++ [10], codecLoads⟩

def pdfAfterLoop (env : MOrchEnv) (prompt rawText : String) (fd : FileData)
    (r : MLoopRes) : MOrchRun :=
  match r.outcome with
  | some items => ⟨Except.ok items, r.calls, 5 :: r.prog, 1⟩
  | none =>
    textOrStandard env prompt rawText [fd] (5 :: r.prog) 1 r.calls.length r.calls

/-- Case 2 of src/unnamed/part_004 lines 345-395 (single PDF). -/
def pdfBranch (env : MOrchEnv) (prompt rawText : String) (fd : FileData)
    (loaded : Except String Nat) : MOrchRun :=
  match loaded with
  | Except.error _ => textOrStandard env prompt rawText [fd] [5] 1 0 []
  | Except.ok totalPages =>
    if 1 < totalPages then
      pdfAfterLoop env prompt rawText fd
        (pdfLoopGo env prompt rawText fd (chunkArray (List.range totalPages) 1).length
          (chunkArray (List.range totalPages) 1) 0 0)
    else textOrStandard env prompt rawText [fd] [5] 1 0 []

/-- Embeds the multi-file `extractStructuredData` of src/unnamed/part_004
(second revision, lines 316-420). Case 1 (lines 326-336): more than one
file means comparison mode - report 20 and make exactly one executor call
with all the files; the PDF chunker is never invoked. Case 2: exactly one
PDF file goes through the chunking branch; cases 3 and 4 are in
`textOrStandard`. -/
def extractStructuredData (env : MOrchEnv) (prompt rawText : String)
    (files : List FileData) : MOrchRun :=
  if 1 < files.length then
    match env.callExtract 0 ⟨prompt, rawText, files⟩ with
    | Except.ok items => ⟨Except.ok items, [⟨prompt, rawText, files⟩], [20], 0⟩
    | Except.error e => ⟨Except.error e, [⟨prompt, rawText, files⟩], [20], 0⟩
  else
    match files with
    | [fd] =>
      if isPdfFile fd then pdfBranch env prompt rawText fd (env.pdfLoad fd.base64)
      else textOrStandard env prompt rawText [fd] [] 0 0 []
    | _ => textOrStandard env prompt rawText files [] 0 0 []

end MultiFile

/-- C8: whenever more than one document is supplied, the multi-file
orchestrator never chunks - the PDF codec is not invoked (`codecLoads = 0`)
- and it performs exactly one executor call carrying all documents
together; the run's result is exactly that call's outcome. -/
theorem comparison_mode_never_chunks (env : MultiFile.MOrchEnv)
    (prompt rawText : String) (files : List FileData) (h : 1 < files.length) :
    (MultiFile.extractStructuredData env prompt rawText files).calls =
      [⟨prompt, rawText, files⟩] ∧
    (MultiFile.extractStructuredData env prompt rawText files).codecLoads = 0 ∧
    (MultiFile.extractStructuredData env prompt rawText files).result =
      env.callExtract 0 ⟨prompt, rawText, files⟩ := by
  unfold MultiFile.extractStructuredData
  rw [if_pos h]
  cases hc : env.callExtract 0 ⟨prompt, rawText, files⟩ with
  | ok items => exact ⟨rfl, rfl, rfl⟩
  | error e => exact ⟨rfl, rfl, rfl⟩

def c8Env : MultiFile.MOrchEnv where
  pdfLoad := fun _ => Except.ok 5
  saveChunk := fun _ => Except.ok ""
  callExtract := fun _ _ => Except.ok []

def c8FileA : FileData where
  base64 := "aa"
  mimeType := "application/pdf"
  name := "a.pdf"

def c8FileB : FileData where
  base64 := "bb"
  mimeType := "application/pdf"
  name := "b.pdf"

theorem comparison_mode_never_chunks_witness :
    1 < ([c8FileA, c8FileB] : List FileData).length ∧
    (MultiFile.extractStructuredData c8Env "p" "t" [c8FileA, c8FileB]).calls =
      [⟨"p", "t", [c8FileA, c8FileB]⟩] ∧
    (MultiFile.extractStructuredData c8Env "p" "t" [c8FileA, c8FileB]).codecLoads = 0 ∧
    (MultiFile.extractStructuredData c8Env "p" "t" [c8FileA, c8FileB]).result =
      c8Env.callExtract 0 ⟨"p", "t", [c8FileA, c8FileB]⟩ :=
  ⟨by decide, comparison_mode_never_chunks c8Env "p" "t" [c8FileA, c8FileB] (by decide)⟩

/-- Environment for `analyzeExtractedData`: the outcome of the single
deep-oracle ("gemini-3-pro-preview") request, and of the i-th
fallback-oracle ("gemini-2.5-flash") request (i = 0, 1, 2). Each outcome
is a thrown error, or a response whose `text` may be absent. -/
structure AnalyzeEnv where
  pro : Except String (Option String)
  flash : Nat → Except String (Option String)

/-- The deterministic placeholder AnalysisResult returned when both
tiers fail (src/services/gemini.ts lines 373-379, first revision). -/
def placeholderAnalysis : Json :=
  Json.obj
    [("summary", Json.str "Analysis failed due to persistent high API traffic. Data extraction is complete and available below."),
     ("sentiment", Json.str "neutral"),
     ("keyEntities", Json.arr []),
     ("suggestedActions", Json.arr [Json.str "Export data to Excel for manual analysis"]),
     ("heuristicAnalysis", Json.arr [Json.str "AI Analysis service temporarily unavailable."])]

/-- The fallback loop of src/services/gemini.ts lines 348-370: three
attempts against the cheaper oracle; a thrown error or a missing or
unparseable response text moves to the next attempt (delays have no
observable effect here); when the loop ends, the placeholder is
returned. -/
def flashLoopGo (env : AnalyzeEnv) : Nat → Nat → Json
  | 0, _ => placeholderAnalysis
  | rem + 1, i =>
    match env.flash i with
    | Except.ok (some t) =>
      match jsonParse t with
      | some j => j
      | none => flashLoopGo env rem (i + 1)
    | Except.ok none => flashLoopGo env rem (i + 1)
    | Except.error _ => flashLoopGo env rem (i + 1)

/-- Embeds `analyzeExtractedData` (src/services/gemini.ts lines 292-379,
first revision): try the deep oracle; a thrown error, an empty response
(`throw new Error("Empty response from Pro")`), or a JSON.parse failure
lands in the catch, which runs the three-attempt fallback loop and
finally returns the placeholder. The function is total: no failure path
raises to the caller. (The `data` argument only feeds the serialized
request, which is part of the opaque oracle environment here.) -/
def analyzeExtractedData (env : AnalyzeEnv) : Json :=
  match env.pro with
  | Except.ok (some t) =>
    match jsonParse t with
    | some j => j
    | none => flashLoopGo env 3 0
  | Except.ok none => flashLoopGo env 3 0
  | Except.error _ => flashLoopGo env 3 0

/-- An analysis attempt "fails" when the request throws, returns no text,
or returns text that is not parseable JSON. -/
def failedAttempt : Except String (Option String) → Prop
  | Except.ok (some t) => jsonParse t = none
  | _ => True

def assocLookup : List (String × Json) → String → Option Json
  | [], _ => none
  | (k', v) :: rest, k => if k' == k then some v else assocLookup rest k

/-- Field access on a JSON object value. -/
def lookupField (j : Json) (k : String) : Option Json :=
  match j with
  | Json.obj fs => assocLookup fs k
  | _ => none

theorem flashLoopGo_all_failed (env : AnalyzeEnv) :
    ∀ rem i, (∀ k, k < rem → failedAttempt (env.flash (i + k))) →
      flashLoopGo env rem i = placeholderAnalysis := by
  intro rem
  induction rem with
  | zero => intro i h; rfl
  | succ r ih =>
    intro i h
    have h0 : failedAttempt (env.flash i) := by
      have := h 0 (by omega)
      simpa using this
    have hrest : ∀ k, k < r → failedAttempt (env.flash (i + 1 + k)) := by
      intro k hk
      have := h (k + 1) (by omega)
      rw [show i + (k + 1) = i + 1 + k from by omega] at this
      exact this
    cases hfi : env.flash i with
    | ok o =>
      cases o with
      | some t =>
        have hparse : jsonParse t = none := by
          rw [hfi] at h0
          exact h0
        simp only [flashLoopGo, hfi, hparse]
        exact ih (i + 1) hrest
      | none =>
        simp only [flashLoopGo, hfi]
        exact ih (i + 1) hrest
    | error e =>
      simp only [flashLoopGo, hfi]
      exact ih (i + 1) hrest

/-- C10: if every analysis attempt across both oracle tiers fails, the
function returns the deterministic placeholder, whose sentiment is
"neutral" and whose summary is a non-empty string; the embedding is total,
so no exception reaches the caller. -/
theorem analysis_placeholder_on_total_failure (env : AnalyzeEnv)
    (hpro : failedAttempt env.pro)
    (hflash : ∀ i, i < 3 → failedAttempt (env.flash i)) :
    analyzeExtractedData env = placeholderAnalysis ∧
    lookupField (analyzeExtractedData env) "sentiment" = some (Json.str "neutral") ∧
    (∃ s, lookupField (analyzeExtractedData env) "summary" = some (Json.str s) ∧ s ≠ "") := by
  have hflash0 : ∀ k, k < 3 → failedAttempt (env.flash (0 + k)) := by
    intro k hk
    simpa using hflash k hk
  have hmain : analyzeExtractedData env = placeholderAnalysis := by
    cases hp : env.pro with
    | ok o =>
      cases o with
      | some t =>
        have hparse : jsonParse t = none := by
          rw [hp] at hpro
          exact hpro
        simp only [analyzeExtractedData, hp, hparse]
        exact flashLoopGo_all_failed env 3 0 hflash0
      | none =>
        simp only [analyzeExtractedData, hp]
        exact flashLoopGo_all_failed env 3 0 hflash0
    | error e =>
      simp only [analyzeExtractedData, hp]
      exact flashLoopGo_all_failed env 3 0 hflash0
  refine ⟨hmain, ?_, ?_⟩
  · rw [hmain]
    rfl
  · rw [hmain]
    exact ⟨"Analysis failed due to persistent high API traffic. Data extraction is complete and available below.",
      rfl, by decide⟩

def c10Env : AnalyzeEnv where
  pro := Except.error "500 internal"
  flash := fun _ => Except.error "503 unavailable"

theorem analysis_placeholder_on_total_failure_witness :
    analyzeExtractedData c10Env = placeholderAnalysis ∧
    lookupField (analyzeExtractedData c10Env) "sentiment" = some (Json.str "neutral") ∧
    (∃ s, lookupField (analyzeExtractedData c10Env) "summary" = some (Json.str s) ∧ s ≠ "") :=
  analysis_placeholder_on_total_failure c10Env trivial (fun _ _ => trivial)
